import Mathlib

/-!
Verification of the NanoDet OpenVINO post-processing pipeline
(`workspace/inference/openvino_2025/src/postprocessor.py`), shallowly embedded
over exact rationals.

Tensors become Lean lists, float arithmetic becomes exact `ℚ` arithmetic, and
the exponential used by `torch.softmax` / `torch.sigmoid` is an explicit
parameter `E : ℚ → ℚ`, about which the theorems assume exactly the two facts
the real exponential provides: positivity and `E (a + b) = E a * E b`.
-/

/-- An axis-aligned box `[x1, y1, x2, y2]`, as a row of the `bboxes` tensors. -/
structure Box where
  x1 : ℚ
  y1 : ℚ
  x2 : ℚ
  y2 : ℚ
deriving DecidableEq

instance : Inhabited Box := ⟨⟨0, 0, 0, 0⟩⟩

/-- A center prior `[x, y, stride, stride]`, one row of `center_priors`
(`PostProcessor._generate_center_priors` stacks `[x, y, strides, strides]`). -/
structure Prior where
  x : ℚ
  y : ℚ
  sx : ℚ
  sy : ℚ
deriving DecidableEq

instance : Inhabited Prior := ⟨⟨0, 0, 0, 0⟩⟩

/-- The configuration values consumed by `PostProcessor.__init__`. -/
structure Config where
  strides : List ℕ
  regMax : ℕ
  inputWidth : ℕ
  inputHeight : ℕ
  scoreThr : ℚ
  iouThreshold : ℚ
  maxDetections : ℕ
deriving DecidableEq

/-- `PostProcessor._get_single_level_center_point`: `x_range = (arange w + 0.5) * stride`,
`y_range = (arange h + 0.5) * stride`, `meshgrid(y_range, x_range, indexing="ij")`,
then both grids flattened row-major; returns the flattened `(y, x)` pairs. -/
def getSingleLevelCenterPoint (h w : ℕ) (stride : ℚ) : List (ℚ × ℚ) :=
  (List.range h).flatMap (fun (r : ℕ) =>
    (List.range w).map (fun (c : ℕ) =>
      (((r : ℚ) + 1/2) * stride, ((c : ℚ) + 1/2) * stride)))

/-- One level of `PostProcessor._generate_center_priors`: the feature-map size
is `(input_height // stride, input_width // stride)` and each grid point `(y, x)`
becomes the prior row `[x, y, stride, stride]`. -/
def levelPriors (H W s : ℕ) : List Prior :=
  (getSingleLevelCenterPoint (H / s) (W / s) (s : ℚ)).map
    (fun p => ⟨p.2, p.1, (s : ℚ), (s : ℚ)⟩)

/-- `PostProcessor._generate_center_priors`: per-level prior lists concatenated
in the order of `config.strides` (`torch.cat(mlvl_center_priors, dim=1)`). -/
def generateCenterPriors (cfg : Config) : List Prior :=
  cfg.strides.flatMap (fun s => levelPriors cfg.inputHeight cfg.inputWidth s)

theorem length_getSingleLevelCenterPoint (h w : ℕ) (s : ℚ) :
    (getSingleLevelCenterPoint h w s).length = h * w := by
  simp [getSingleLevelCenterPoint, List.length_flatMap, Function.comp_def,
    List.map_const, mul_comm]

theorem length_levelPriors (H W s : ℕ) :
    (levelPriors H W s).length = (H / s) * (W / s) := by
  simp [levelPriors, length_getSingleLevelCenterPoint]

theorem length_generateCenterPriors (cfg : Config) :
    (generateCenterPriors cfg).length
      = (cfg.strides.map
          (fun s => (cfg.inputHeight / s) * (cfg.inputWidth / s))).sum := by
  simp [generateCenterPriors, List.length_flatMap, Function.comp_def, length_levelPriors]

/-- Row-major indexing into a flattened `h × w` grid built over `List.range`. -/
theorem getElem?_grid {α : Type} (f : ℕ → ℕ → α) (w : ℕ) :
    ∀ (h r c : ℕ), r < h → c < w →
      ((List.range h).flatMap (fun i => (List.range w).map (f i)))[r * w + c]?
        = some (f r c) := by
  intro h
  induction h with
  | zero => intro r c hr; omega
  | succ n ih =>
    intro r c hr hc
    rw [List.range_succ, List.flatMap_append]
    have hlen : ((List.range n).flatMap (fun i => (List.range w).map (f i))).length
        = n * w := by
      simp [List.length_flatMap, Function.comp_def, List.map_const, mul_comm]
    rcases Nat.lt_or_ge r n with hrn | hrn
    · have hidx : r * w + c < n * w := by
        calc r * w + c < r * w + w := by omega
        _ = (r + 1) * w := by ring
        _ ≤ n * w := Nat.mul_le_mul_right w hrn
      rw [List.getElem?_append_left (by rw [hlen]; exact hidx)]
      exact ih r c hrn hc
    · have hrn' : r = n := by omega
      subst hrn'
      rw [List.getElem?_append_right (by rw [hlen]; omega)]
      rw [hlen]
      have : r * w + c - r * w = c := by omega
      rw [this]
      simp [List.flatMap_singleton, List.getElem?_map, List.getElem?_range hc]

/-- Indexing into a concatenation of per-element lists: position
`(sum of the lengths of the chunks before chunk i) + k` lands at position `k`
of chunk `i`. -/
theorem getElem?_flatMap_chunk {α β : Type} (g : α → List β) (d : α) :
    ∀ (ls : List α) (i k : ℕ), i < ls.length → k < (g (ls.getD i d)).length →
      (ls.flatMap g)[((ls.take i).map (fun a => (g a).length)).sum + k]?
        = (g (ls.getD i d))[k]? := by
  intro ls
  induction ls with
  | nil =>
    intro i k hi _
    simp only [List.length_nil] at hi
    omega
  | cons a tl ih =>
    intro i k hi hk
    cases i with
    | zero =>
      simp only [List.take_zero, List.map_nil, List.sum_nil, Nat.zero_add,
        List.flatMap_cons, List.getD_cons_zero] at *
      exact List.getElem?_append_left hk
    | succ n =>
      simp only [List.length_cons] at hi
      simp only [List.take_succ_cons, List.map_cons, List.sum_cons,
        List.flatMap_cons, List.getD_cons_succ] at *
      rw [Nat.add_assoc, List.getElem?_append_right (Nat.le_add_right _ _)]
      rw [Nat.add_sub_cancel_left]
      exact ih n k (by omega) hk

/-- C1: prior generation emits, for each stride `s` taken in the order of
`config.strides`, one prior per cell of a `(H/s) × (W/s)` feature map, at
`((c+0.5)·s, (r+0.5)·s)` with `stride_x = stride_y = s`, flattened row-major
within each level and concatenated level by level; the total number of priors
is `Σ_levels (H/s)·(W/s)`. -/
theorem prior_grid_structure (cfg : Config) (i r c : ℕ)
    (hi : i < cfg.strides.length)
    (hr : r < cfg.inputHeight / cfg.strides.getD i 0)
    (hc : c < cfg.inputWidth / cfg.strides.getD i 0) :
    (generateCenterPriors cfg).length
        = (cfg.strides.map
            (fun s => (cfg.inputHeight / s) * (cfg.inputWidth / s))).sum
    ∧ (generateCenterPriors cfg)[((cfg.strides.take i).map
          (fun s => (cfg.inputHeight / s) * (cfg.inputWidth / s))).sum
          + (r * (cfg.inputWidth / cfg.strides.getD i 0) + c)]?
        = some ⟨((c : ℚ) + 1/2) * (cfg.strides.getD i 0 : ℚ),
                ((r : ℚ) + 1/2) * (cfg.strides.getD i 0 : ℚ),
                (cfg.strides.getD i 0 : ℚ), (cfg.strides.getD i 0 : ℚ)⟩ := by
  constructor
  · exact length_generateCenterPriors cfg
  · have hmap : (cfg.strides.take i).map
          (fun t => (cfg.inputHeight / t) * (cfg.inputWidth / t))
        = (cfg.strides.take i).map
          (fun t => (levelPriors cfg.inputHeight cfg.inputWidth t).length) := by
      exact List.map_congr_left (fun t _ => (length_levelPriors _ _ t).symm)
    rw [generateCenterPriors, hmap]
    have hk : r * (cfg.inputWidth / cfg.strides.getD i 0) + c
        < (levelPriors cfg.inputHeight cfg.inputWidth
            (cfg.strides.getD i 0)).length := by
      rw [length_levelPriors]
      calc r * (cfg.inputWidth / cfg.strides.getD i 0) + c
          < r * (cfg.inputWidth / cfg.strides.getD i 0)
            + (cfg.inputWidth / cfg.strides.getD i 0) := by omega
      _ = (r + 1) * (cfg.inputWidth / cfg.strides.getD i 0) := by ring
      _ ≤ (cfg.inputHeight / cfg.strides.getD i 0)
            * (cfg.inputWidth / cfg.strides.getD i 0) :=
          Nat.mul_le_mul_right _ hr
    rw [getElem?_flatMap_chunk
      (fun t => levelPriors cfg.inputHeight cfg.inputWidth t) 0
      cfg.strides i _ hi hk]
    rw [levelPriors, List.getElem?_map, getSingleLevelCenterPoint,
      getElem?_grid _ _ _ r c hr hc]
    rfl

/-- Witness for C1 at a concrete configuration: strides `[8, 16]` on a
`32 × 32` input give `16 + 4 = 20` priors, and the prior of level 1, row 1,
column 0 sits at index `16 + 2 = 18` with value `(8, 24, 16, 16)`. -/
theorem prior_grid_structure_witness :
    (generateCenterPriors ⟨[8, 16], 7, 32, 32, 3/10, 1/2, 100⟩).length = 20
    ∧ (generateCenterPriors ⟨[8, 16], 7, 32, 32, 3/10, 1/2, 100⟩)[18]?
        = some ⟨8, 24, 16, 16⟩ := by
  obtain ⟨h1, h2⟩ := prior_grid_structure ⟨[8, 16], 7, 32, 32, 3/10, 1/2, 100⟩
    1 1 0 (by decide) (by decide) (by decide)
  norm_num at h1 h2
  exact ⟨h1, h2⟩

/-- `F.softmax(·, dim=-1)` over one row: entry `i` is `exp xᵢ / Σⱼ exp xⱼ`.
The exponential is the abstract parameter `E`; theorems assume of it exactly
what the real exponential satisfies (positivity and turning sums into
products), so the stability shift `torch` applies internally is invisible in
exact arithmetic. -/
def softmaxQ (E : ℚ → ℚ) (xs : List ℚ) : List ℚ :=
  (xs.map E).map (fun e => e / (xs.map E).sum)

/-- `torch.linspace(0, reg_max, reg_max + 1)`: the vector `[0, 1, …, reg_max]`. -/
def projectVec (regMax : ℕ) : List ℚ :=
  (List.range (regMax + 1)).map (fun (i : ℕ) => (i : ℚ))

/-- Row/vector product, the effect of `F.linear(softmax_preds, project_tensor)`
on one group. -/
def dotQ (a b : List ℚ) : ℚ := (List.zipWith (fun x y => x * y) a b).sum

/-- `reshape(*shape[:-1], 4, reg_max + 1)` of one proposal's `4·(reg_max+1)`
regression logits: the four consecutive length-`k` groups (left, top, right,
bottom), `k = reg_max + 1`. -/
def reshapeGroups (k : ℕ) (xs : List ℚ) : List (List ℚ) :=
  [xs.take k, ((xs.drop k).take k), (((xs.drop k).drop k).take k),
    ((((xs.drop k).drop k).drop k).take k)]

/-- `_integral_distribution_project` for one proposal: reshape into 4 groups,
softmax within each group, then `F.linear` with `[0, …, reg_max]`, i.e. the
expectation `Σᵢ i · softmaxᵢ` of each group. -/
def integralDistributionProject (E : ℚ → ℚ) (regMax : ℕ) (xs : List ℚ) : List ℚ :=
  (reshapeGroups (regMax + 1) xs).map (fun g => dotQ (softmaxQ E g) (projectVec regMax))

theorem sum_map_div (l : List ℚ) (s : ℚ) :
    (l.map (fun x => x / s)).sum = l.sum / s := by
  induction l with
  | nil => simp
  | cons a t ih => simp [ih, add_div]

theorem sum_map_mul_const (l : List ℚ) (c : ℚ) :
    (l.map (fun x => x * c)).sum = l.sum * c := by
  induction l with
  | nil => simp
  | cons a t ih => simp [ih, add_mul]

theorem expSum_pos (E : ℚ → ℚ) (hpos : ∀ x, 0 < E x) (g : List ℚ) (hg : g ≠ []) :
    0 < (g.map E).sum := by
  apply List.sum_pos
  · intro x hx
    obtain ⟨a, _, rfl⟩ := List.mem_map.mp hx
    exact hpos a
  · simpa using hg

theorem softmaxQ_sum_eq_one (E : ℚ → ℚ) (hpos : ∀ x, 0 < E x) (g : List ℚ)
    (hg : g ≠ []) : (softmaxQ E g).sum = 1 := by
  have hS : 0 < (g.map E).sum := expSum_pos E hpos g hg
  rw [softmaxQ, sum_map_div, div_self (ne_of_gt hS)]

theorem softmaxQ_shift (E : ℚ → ℚ) (hpos : ∀ x, 0 < E x)
    (hadd : ∀ a b, E (a + b) = E a * E b) (g : List ℚ) (c : ℚ) :
    softmaxQ E (g.map (fun x => x + c)) = softmaxQ E g := by
  have hEc : E c ≠ 0 := ne_of_gt (hpos c)
  have h1 : (g.map (fun x => x + c)).map E = (g.map E).map (fun e => e * E c) := by
    rw [List.map_map, List.map_map]
    exact List.map_congr_left (fun x _ => hadd x c)
  unfold softmaxQ
  rw [h1, sum_map_mul_const, List.map_map]
  refine List.map_congr_left (fun e _ => ?_)
  simp only [Function.comp_apply]
  exact mul_div_mul_right e _ hEc

theorem reshapeGroups_map (k : ℕ) (f : ℚ → ℚ) (xs : List ℚ) :
    reshapeGroups k (xs.map f) = (reshapeGroups k xs).map (List.map f) := by
  simp [reshapeGroups, List.map_take, List.map_drop]

theorem integralDistributionProject_shift (E : ℚ → ℚ) (hpos : ∀ x, 0 < E x)
    (hadd : ∀ a b, E (a + b) = E a * E b) (regMax : ℕ) (xs : List ℚ) (c : ℚ) :
    integralDistributionProject E regMax (xs.map (fun x => x + c))
      = integralDistributionProject E regMax xs := by
  unfold integralDistributionProject
  rw [reshapeGroups_map, List.map_map]
  refine List.map_congr_left (fun g _ => ?_)
  simp only [Function.comp_apply]
  rw [softmaxQ_shift E hpos hadd]

theorem softmaxQ_replicate (E : ℚ → ℚ) (hpos : ∀ x, 0 < E x) (n : ℕ) (c : ℚ) :
    softmaxQ E (List.replicate n c) = List.replicate n (1 / (n : ℚ)) := by
  have hEc : E c ≠ 0 := ne_of_gt (hpos c)
  unfold softmaxQ
  rw [List.map_replicate, List.map_replicate, List.sum_replicate, nsmul_eq_mul]
  congr 1
  rcases Nat.eq_zero_or_pos n with hn | hn
  · subst hn; simp
  · have : E c / ((n : ℚ) * E c) = 1 * E c / ((n : ℚ) * E c) := by rw [one_mul]
    rw [this, mul_div_mul_right 1 _ hEc]

/-- C2: the decoder reshapes a `4·(reg_max+1)` logit vector into 4 groups,
softmaxes each group and returns each group's expectation `Σ i·softmaxᵢ`; for
`reg_max = 7` and equal logits within each group the softmax is uniform at
`1/8`, the expectation is `3.5`, and multiplying by stride `8` (as
`PostProcessor.process` does) gives `28.0`. -/
theorem integral_projection_uniform (E : ℚ → ℚ) (hpos : ∀ x, 0 < E x) (c : ℚ) :
    softmaxQ E (List.replicate 8 c) = List.replicate 8 (1/8)
    ∧ integralDistributionProject E 7 (List.replicate 32 c) = [7/2, 7/2, 7/2, 7/2]
    ∧ (integralDistributionProject E 7 (List.replicate 32 c)).map (fun d => d * 8)
        = [28, 28, 28, 28] := by
  have hsm : softmaxQ E (List.replicate 8 c) = List.replicate 8 (1/8) := by
    rw [softmaxQ_replicate E hpos 8 c]
    norm_num
  have hgroups : reshapeGroups 8 (List.replicate 32 c)
      = [List.replicate 8 c, List.replicate 8 c, List.replicate 8 c,
          List.replicate 8 c] := by
    simp [reshapeGroups, List.take_replicate, List.drop_replicate]
  have hint : integralDistributionProject E 7 (List.replicate 32 c)
      = [7/2, 7/2, 7/2, 7/2] := by
    show (reshapeGroups 8 (List.replicate 32 c)).map
        (fun g => dotQ (softmaxQ E g) (projectVec 7)) = [7/2, 7/2, 7/2, 7/2]
    rw [hgroups]
    simp only [List.map_cons, List.map_nil, hsm]
    have hrep : List.replicate 8 ((1 : ℚ)/8)
        = [1/8, 1/8, 1/8, 1/8, 1/8, 1/8, 1/8, 1/8] := rfl
    rw [hrep]
    norm_num [dotQ, projectVec, List.range_succ]
  refine ⟨hsm, hint, ?_⟩
  rw [hint]
  norm_num

/-- Witness for C2 with the constant-one exponential and logit value `0`. -/
theorem integral_projection_uniform_witness :
    softmaxQ (fun _ => 1) (List.replicate 8 (0 : ℚ)) = List.replicate 8 (1/8)
    ∧ integralDistributionProject (fun _ => 1) 7 (List.replicate 32 (0 : ℚ))
        = [7/2, 7/2, 7/2, 7/2]
    ∧ (integralDistributionProject (fun _ => 1) 7
          (List.replicate 32 (0 : ℚ))).map (fun d => d * 8) = [28, 28, 28, 28] :=
  integral_projection_uniform (fun _ => 1) (fun _ => one_pos) 0

/-- C3: adding a constant to every logit of a regression group leaves the
softmax (hence the decoded offset) unchanged, and the softmax values of a
nonempty group sum to exactly 1 (so in particular within `1e-5`). -/
theorem dist_decode_shift_invariant (E : ℚ → ℚ) (hpos : ∀ x, 0 < E x)
    (hadd : ∀ a b, E (a + b) = E a * E b) (g : List ℚ) (hg : g ≠ []) (c : ℚ)
    (regMax : ℕ) (xs : List ℚ) :
    softmaxQ E (g.map (fun x => x + c)) = softmaxQ E g
    ∧ (softmaxQ E g).sum = 1
    ∧ dotQ (softmaxQ E (g.map (fun x => x + c))) (projectVec regMax)
        = dotQ (softmaxQ E g) (projectVec regMax)
    ∧ integralDistributionProject E regMax (xs.map (fun x => x + c))
        = integralDistributionProject E regMax xs := by
  refine ⟨softmaxQ_shift E hpos hadd g c, softmaxQ_sum_eq_one E hpos g hg, ?_, ?_⟩
  · rw [softmaxQ_shift E hpos hadd g c]
  · exact integralDistributionProject_shift E hpos hadd regMax xs c

/-- Witness for C3 with the constant-one exponential, group `[0, 1]`,
shift `2`, `reg_max = 1` and logits `[5]`. -/
theorem dist_decode_shift_invariant_witness :
    softmaxQ (fun _ => 1) (([0, 1] : List ℚ).map (fun x => x + 2))
        = softmaxQ (fun _ => 1) [0, 1]
    ∧ (softmaxQ (fun _ => 1) ([0, 1] : List ℚ)).sum = 1
    ∧ dotQ (softmaxQ (fun _ => 1) (([0, 1] : List ℚ).map (fun x => x + 2)))
          (projectVec 1)
        = dotQ (softmaxQ (fun _ => 1) [0, 1]) (projectVec 1)
    ∧ integralDistributionProject (fun _ => 1) 1 (([5] : List ℚ).map (fun x => x + 2))
        = integralDistributionProject (fun _ => 1) 1 [5] :=
  dist_decode_shift_invariant (fun _ => 1) (fun _ => one_pos)
    (fun _ _ => (one_mul 1).symm) [0, 1] (by decide) 2 1 [5]

/-- `Tensor.clamp(min=lo, max=hi)` on one scalar. -/
def clampQ (x lo hi : ℚ) : ℚ := min (max x lo) hi

/-- `PostProcessor._distance2bbox` for one prior point `(px, py)` and one
distance tuple `(dl, dt, dr, db)`: `x1 = px - dl`, `y1 = py - dt`,
`x2 = px + dr`, `y2 = py + db`; when `max_shape = (H, W)` is given, the x
coordinates are clamped into `[0, W]` and the y coordinates into `[0, H]`. -/
def distance2bbox (px py dl dt dr db : ℚ) (maxShape : Option (ℚ × ℚ)) : Box :=
  match maxShape with
  | none => ⟨px - dl, py - dt, px + dr, py + db⟩
  | some (H, W) =>
      ⟨clampQ (px - dl) 0 W, clampQ (py - dt) 0 H,
       clampQ (px + dr) 0 W, clampQ (py + db) 0 H⟩

theorem clampQ_nonneg (x hi : ℚ) (h : 0 ≤ hi) : 0 ≤ clampQ x 0 hi :=
  le_min (le_max_right x 0) h

theorem clampQ_le_hi (x hi : ℚ) : clampQ x 0 hi ≤ hi := min_le_right _ _

theorem clampQ_mono (x y lo hi : ℚ) (h : x ≤ y) : clampQ x lo hi ≤ clampQ y lo hi :=
  min_le_min (max_le_max h le_rfl) le_rfl

theorem zipWith_mul_sum_nonneg :
    ∀ (a b : List ℚ), (∀ x ∈ a, 0 ≤ x) → (∀ x ∈ b, 0 ≤ x) →
      0 ≤ (List.zipWith (fun x y => x * y) a b).sum := by
  intro a
  induction a with
  | nil => intro b _ _; simp
  | cons x xs ih =>
    intro b ha hb
    cases b with
    | nil => simp
    | cons y ys =>
      simp only [List.zipWith_cons_cons, List.sum_cons]
      have h1 : 0 ≤ x * y :=
        mul_nonneg (ha x (List.mem_cons_self x xs)) (hb y (List.mem_cons_self y ys))
      have h2 := ih ys (fun z hz => ha z (List.mem_cons_of_mem _ hz))
        (fun z hz => hb z (List.mem_cons_of_mem _ hz))
      exact add_nonneg h1 h2

theorem softmaxQ_mem_nonneg (E : ℚ → ℚ) (hpos : ∀ x, 0 < E x) (g : List ℚ)
    (v : ℚ) (hv : v ∈ softmaxQ E g) : 0 ≤ v := by
  unfold softmaxQ at hv
  obtain ⟨e, he, rfl⟩ := List.mem_map.mp hv
  obtain ⟨a, ha, rfl⟩ := List.mem_map.mp he
  have hgne : g ≠ [] := List.ne_nil_of_mem ha
  exact div_nonneg (le_of_lt (hpos a)) (le_of_lt (expSum_pos E hpos g hgne))

theorem projectVec_mem_nonneg (regMax : ℕ) (v : ℚ) (hv : v ∈ projectVec regMax) :
    0 ≤ v := by
  obtain ⟨i, _, rfl⟩ := List.mem_map.mp hv
  exact Nat.cast_nonneg i

theorem integralDistributionProject_nonneg (E : ℚ → ℚ) (hpos : ∀ x, 0 < E x)
    (regMax : ℕ) (xs : List ℚ) (v : ℚ)
    (hv : v ∈ integralDistributionProject E regMax xs) : 0 ≤ v := by
  obtain ⟨g, _, rfl⟩ := List.mem_map.mp hv
  exact zipWith_mul_sum_nonneg _ _
    (fun z hz => softmaxQ_mem_nonneg E hpos g z hz)
    (fun z hz => projectVec_mem_nonneg regMax z hz)

/-- C4: the distribution decoder's outputs are non-negative, and for any prior
point, any non-negative offsets and any non-negative canvas bounds, the decoded
box clipped by `_distance2bbox` satisfies
`0 ≤ x1 ≤ x2 ≤ W` and `0 ≤ y1 ≤ y2 ≤ H`. -/
theorem decoded_box_clip_invariant (E : ℚ → ℚ) (hpos : ∀ x, 0 < E x)
    (regMax : ℕ) (xs : List ℚ) (v : ℚ)
    (hv : v ∈ integralDistributionProject E regMax xs)
    (px py dl dt dr db W H : ℚ)
    (hdl : 0 ≤ dl) (hdt : 0 ≤ dt) (hdr : 0 ≤ dr) (hdb : 0 ≤ db)
    (hW : 0 ≤ W) (hH : 0 ≤ H) :
    0 ≤ v
    ∧ 0 ≤ (distance2bbox px py dl dt dr db (some (H, W))).x1
    ∧ (distance2bbox px py dl dt dr db (some (H, W))).x1
        ≤ (distance2bbox px py dl dt dr db (some (H, W))).x2
    ∧ (distance2bbox px py dl dt dr db (some (H, W))).x2 ≤ W
    ∧ 0 ≤ (distance2bbox px py dl dt dr db (some (H, W))).y1
    ∧ (distance2bbox px py dl dt dr db (some (H, W))).y1
        ≤ (distance2bbox px py dl dt dr db (some (H, W))).y2
    ∧ (distance2bbox px py dl dt dr db (some (H, W))).y2 ≤ H := by
  refine ⟨integralDistributionProject_nonneg E hpos regMax xs v hv, ?_, ?_, ?_, ?_, ?_, ?_⟩
  · exact clampQ_nonneg _ _ hW
  · exact clampQ_mono _ _ _ _ (by linarith)
  · exact clampQ_le_hi _ _
  · exact clampQ_nonneg _ _ hH
  · exact clampQ_mono _ _ _ _ (by linarith)
  · exact clampQ_le_hi _ _

/-- Witness for C4 at the empty logit list (decoder output `[0,0,0,0]`),
prior `(4, 4)`, zero offsets and a `320 × 320` canvas. -/
theorem decoded_box_clip_invariant_witness :
    0 ≤ (0 : ℚ)
    ∧ 0 ≤ (distance2bbox 4 4 0 0 0 0 (some (320, 320))).x1
    ∧ (distance2bbox 4 4 0 0 0 0 (some (320, 320))).x1
        ≤ (distance2bbox 4 4 0 0 0 0 (some (320, 320))).x2
    ∧ (distance2bbox 4 4 0 0 0 0 (some (320, 320))).x2 ≤ 320
    ∧ 0 ≤ (distance2bbox 4 4 0 0 0 0 (some (320, 320))).y1
    ∧ (distance2bbox 4 4 0 0 0 0 (some (320, 320))).y1
        ≤ (distance2bbox 4 4 0 0 0 0 (some (320, 320))).y2
    ∧ (distance2bbox 4 4 0 0 0 0 (some (320, 320))).y2 ≤ 320 :=
  decoded_box_clip_invariant (fun _ => 1) (fun _ => one_pos) 7 [] 0
    (by simp [integralDistributionProject, reshapeGroups, softmaxQ, dotQ])
    4 4 0 0 0 0 320 320 le_rfl le_rfl le_rfl le_rfl (by norm_num) (by norm_num)

/-- Area of a box, `(x2 - x1) * (y2 - y1)`, as in `torchvision.ops.box_area`. -/
def boxArea (b : Box) : ℚ := (b.x2 - b.x1) * (b.y2 - b.y1)

/-- Intersection-over-Union as computed by `torchvision.ops.box_iou`:
clamped intersection area divided by `areaA + areaB - inter`. -/
def iou (a b : Box) : ℚ :=
  max (min a.x2 b.x2 - max a.x1 b.x1) 0 * max (min a.y2 b.y2 - max a.y1 b.y1) 0 /
    (boxArea a + boxArea b
      - max (min a.x2 b.x2 - max a.x1 b.x1) 0 * max (min a.y2 b.y2 - max a.y1 b.y1) 0)

/-- Adding the scalar offset `o` to all four coordinates of a box, the effect
of `boxes + offsets[:, None]` in `PostProcessor._batched_nms`. -/
def shiftBox (b : Box) (o : ℚ) : Box := ⟨b.x1 + o, b.y1 + o, b.x2 + o, b.y2 + o⟩

/-- `boxes.max() if boxes.numel() > 0 else 0`: the maximum over every
coordinate of every box. -/
def maxCoordinate (boxes : List Box) : ℚ :=
  match boxes.flatMap (fun b => [b.x1, b.y1, b.x2, b.y2]) with
  | [] => 0
  | x :: xs => xs.foldl max x

/-- The per-class offset boxes of `PostProcessor._batched_nms`:
`offsets = idxs * (max_coordinate + 1)` and `boxes_for_nms = boxes + offsets[:, None]`. -/
def boxesForNms (boxes : List Box) (classes : List ℕ) : List Box :=
  List.zipWith (fun b (c : ℕ) => shiftBox b ((c : ℚ) * (maxCoordinate boxes + 1)))
    boxes classes

/-- Stable insertion of index `i` into a score-descending index list
(`torchvision.ops.nms` processes proposals in order of decreasing score). -/
def insertRankedDesc (scores : List ℚ) (i : ℕ) : List ℕ → List ℕ
  | [] => [i]
  | j :: rest =>
      if scores.getD j 0 < scores.getD i 0 then i :: j :: rest
      else j :: insertRankedDesc scores i rest

/-- The proposal indices sorted by decreasing score. -/
def argsortDesc (scores : List ℚ) : List ℕ :=
  (List.range scores.length).foldl (fun acc i => insertRankedDesc scores i acc) []

/-- One step of greedy NMS: keep candidate `i` unless some already-kept box
overlaps it with IoU above the threshold. -/
def nmsStep (thr : ℚ) (boxes : List Box) (kept : List ℕ) (i : ℕ) : List ℕ :=
  if ∀ j ∈ kept, iou (boxes.getD i default) (boxes.getD j default) ≤ thr
  then kept ++ [i] else kept

/-- Greedy `torchvision.ops.nms`: walk the score-descending order, keeping a
proposal iff its IoU with every already-kept proposal is at most the
threshold; returns kept indices in keep order. -/
def nmsIndices (thr : ℚ) (boxes : List Box) (order : List ℕ) : List ℕ :=
  order.foldl (nmsStep thr boxes) []

/-- `PostProcessor._batched_nms` (class-aware branch): offset each box by
`class · (max_coordinate + 1)`, run plain NMS on the offset boxes with the
original scores, and return the kept `(box, score)` rows plus the kept
indices. -/
def batchedNms (thr : ℚ) (boxes : List Box) (scores : List ℚ) (classes : List ℕ) :
    List (Box × ℚ) × List ℕ :=
  let keep := nmsIndices thr (boxesForNms boxes classes) (argsortDesc scores)
  (keep.map (fun i => (boxes.getD i default, scores.getD i 0)), keep)

theorem iou_comm (a b : Box) : iou a b = iou b a := by
  unfold iou boxArea
  rw [min_comm a.x2 b.x2, max_comm a.x1 b.x1, min_comm a.y2 b.y2,
    max_comm a.y1 b.y1, add_comm ((a.x2 - a.x1) * (a.y2 - a.y1))]

theorem iou_shiftBox (a b : Box) (o : ℚ) :
    iou (shiftBox a o) (shiftBox b o) = iou a b := by
  unfold iou boxArea shiftBox
  simp only [min_add_add_right, max_add_add_right, add_sub_add_right_eq_sub]

theorem foldl_nmsStep_pairwise (thr : ℚ) (boxes : List Box) :
    ∀ (order acc : List ℕ),
      (∀ i ∈ acc, ∀ j ∈ acc, i ≠ j →
        iou (boxes.getD i default) (boxes.getD j default) ≤ thr) →
      ∀ i ∈ order.foldl (nmsStep thr boxes) acc,
        ∀ j ∈ order.foldl (nmsStep thr boxes) acc, i ≠ j →
          iou (boxes.getD i default) (boxes.getD j default) ≤ thr := by
  intro order
  induction order with
  | nil => intro acc hacc; simpa using hacc
  | cons a tl ih =>
    intro acc hacc
    simp only [List.foldl_cons]
    apply ih
    unfold nmsStep
    split
    · rename_i hcond
      intro i hi j hj hne
      rcases List.mem_append.mp hi with hi' | hi' <;>
        rcases List.mem_append.mp hj with hj' | hj'
      · exact hacc i hi' j hj' hne
      · have hj'' : j = a := by simpa using hj'
        subst hj''
        rw [iou_comm]
        exact hcond i hi'
      · have hi'' : i = a := by simpa using hi'
        subst hi''
        exact hcond j hj'
      · have hi'' : i = a := by simpa using hi'
        have hj'' : j = a := by simpa using hj'
        subst hi''
        exact absurd hj''.symm hne
    · exact hacc

theorem foldl_nmsStep_subset (thr : ℚ) (boxes : List Box) :
    ∀ (order acc : List ℕ), ∀ i ∈ order.foldl (nmsStep thr boxes) acc,
      i ∈ acc ∨ i ∈ order := by
  intro order
  induction order with
  | nil => intro acc i hi; exact Or.inl (by simpa using hi)
  | cons a tl ih =>
    intro acc i hi
    simp only [List.foldl_cons] at hi
    rcases ih _ i hi with h1 | h1
    · unfold nmsStep at h1
      split at h1
      · rcases List.mem_append.mp h1 with h2 | h2
        · exact Or.inl h2
        · right
          have : i = a := by simpa using h2
          simp [this]
      · exact Or.inl h1
    · right
      exact List.mem_cons_of_mem _ h1

theorem mem_insertRankedDesc (scores : List ℚ) (i x : ℕ) :
    ∀ (l : List ℕ), x ∈ insertRankedDesc scores i l ↔ x = i ∨ x ∈ l := by
  intro l
  induction l with
  | nil => simp [insertRankedDesc]
  | cons j rest ih =>
    unfold insertRankedDesc
    split
    · simp
    · simp only [List.mem_cons, ih]
      tauto

theorem mem_foldl_insert (scores : List ℚ) :
    ∀ (l acc : List ℕ) (x : ℕ),
      x ∈ l.foldl (fun a i => insertRankedDesc scores i a) acc →
      x ∈ acc ∨ x ∈ l := by
  intro l
  induction l with
  | nil => intro acc x h; exact Or.inl (by simpa using h)
  | cons a tl ih =>
    intro acc x h
    simp only [List.foldl_cons] at h
    rcases ih _ x h with h1 | h1
    · rcases (mem_insertRankedDesc scores a x acc).mp h1 with rfl | h2
      · exact Or.inr (List.mem_cons_self x tl)
      · exact Or.inl h2
    · exact Or.inr (List.mem_cons_of_mem _ h1)

theorem mem_argsortDesc_lt (scores : List ℚ) (x : ℕ) (hx : x ∈ argsortDesc scores) :
    x < scores.length := by
  rcases mem_foldl_insert scores (List.range scores.length) [] x hx with h | h
  · simp at h
  · exact List.mem_range.mp h

theorem boxesForNms_getD (boxes : List Box) (classes : List ℕ) (i : ℕ)
    (hb : i < boxes.length) (hc : i < classes.length) :
    (boxesForNms boxes classes).getD i default
      = shiftBox (boxes.getD i default)
          ((classes.getD i 0 : ℚ) * (maxCoordinate boxes + 1)) := by
  have hlen : i < (boxesForNms boxes classes).length := by
    rw [boxesForNms, List.length_zipWith]
    omega
  rw [List.getD_eq_getElem _ _ hlen, List.getD_eq_getElem _ _ hb,
    List.getD_eq_getElem _ _ hc]
  exact List.getElem_zipWith ..

/-- C5: among the detections kept by `_batched_nms`, no two distinct kept
proposals of the same class have raw-space IoU above the threshold; and in the
concrete class-separation scenario, two boxes with identical coordinates
(raw IoU exactly 1) but different classes both survive. -/
theorem nms_same_class_iou_bound (thr : ℚ) (boxes : List Box) (scores : List ℚ)
    (classes : List ℕ) (i j : ℕ)
    (hsl : scores.length = boxes.length) (hcl : classes.length = boxes.length)
    (hi : i ∈ (batchedNms thr boxes scores classes).2)
    (hj : j ∈ (batchedNms thr boxes scores classes).2)
    (hne : i ≠ j) (hcls : classes.getD i 0 = classes.getD j 0) :
    iou (boxes.getD i default) (boxes.getD j default) ≤ thr
    ∧ iou (⟨0, 0, 10, 10⟩ : Box) ⟨0, 0, 10, 10⟩ = 1
    ∧ (batchedNms (1/2) [(⟨0, 0, 10, 10⟩ : Box), ⟨0, 0, 10, 10⟩]
        [9/10, 4/10] [0, 1]).2 = [0, 1] := by
  refine ⟨?_, by norm_num [iou, boxArea], ?_⟩
  · have hmemi : i ∈ nmsIndices thr (boxesForNms boxes classes) (argsortDesc scores) := hi
    have hmemj : j ∈ nmsIndices thr (boxesForNms boxes classes) (argsortDesc scores) := hj
    have hib : i < boxes.length := by
      rcases foldl_nmsStep_subset thr (boxesForNms boxes classes)
        (argsortDesc scores) [] i hmemi with h | h
      · simp at h
      · exact hsl ▸ mem_argsortDesc_lt scores i h
    have hjb : j < boxes.length := by
      rcases foldl_nmsStep_subset thr (boxesForNms boxes classes)
        (argsortDesc scores) [] j hmemj with h | h
      · simp at h
      · exact hsl ▸ mem_argsortDesc_lt scores j h
    have hpair := foldl_nmsStep_pairwise thr (boxesForNms boxes classes)
      (argsortDesc scores) [] (by simp) i hmemi j hmemj hne
    rw [boxesForNms_getD boxes classes i hib (hcl ▸ hib),
      boxesForNms_getD boxes classes j hjb (hcl ▸ hjb), hcls,
      iou_shiftBox] at hpair
    exact hpair
  · norm_num [batchedNms, nmsIndices, nmsStep, argsortDesc, insertRankedDesc,
      boxesForNms, maxCoordinate, shiftBox, iou, boxArea, List.range_succ]

/-- Witness for C5: two far-apart same-class boxes are both kept and their
IoU (zero) is below the threshold. -/
theorem nms_same_class_iou_bound_witness :
    iou (([(⟨0, 0, 1, 1⟩ : Box), ⟨100, 100, 101, 101⟩] : List Box).getD 0 default)
        (([(⟨0, 0, 1, 1⟩ : Box), ⟨100, 100, 101, 101⟩] : List Box).getD 1 default)
        ≤ 1/2
    ∧ iou (⟨0, 0, 10, 10⟩ : Box) ⟨0, 0, 10, 10⟩ = 1
    ∧ (batchedNms (1/2) [(⟨0, 0, 10, 10⟩ : Box), ⟨0, 0, 10, 10⟩]
        [9/10, 4/10] [0, 1]).2 = [0, 1] :=
  nms_same_class_iou_bound (1/2) [⟨0, 0, 1, 1⟩, ⟨100, 100, 101, 101⟩]
    [9/10, 1/2] [0, 0] 0 1 rfl rfl
    (by norm_num [batchedNms, nmsIndices, nmsStep, argsortDesc, insertRankedDesc,
      boxesForNms, maxCoordinate, shiftBox, iou, boxArea, List.range_succ])
    (by norm_num [batchedNms, nmsIndices, nmsStep, argsortDesc, insertRankedDesc,
      boxesForNms, maxCoordinate, shiftBox, iou, boxArea, List.range_succ])
    (by decide) rfl

/-- The score-threshold filtering of `PostProcessor._multiclass_nms`:
`valid_mask = scores > score_thr` over the `num_classes` foreground columns,
turned row-major (`masked_select` / `nonzero` order) into
`(box, score, class)` triples. -/
def selectedTriples (expanded : List Box) (multiScores : List (List ℚ))
    (numClasses : ℕ) (scoreThr : ℚ) : List (Box × ℚ × ℕ) :=
  (List.range multiScores.length).flatMap (fun p =>
    (List.range numClasses).flatMap (fun c =>
      if scoreThr < (multiScores.getD p []).getD c 0
      then [(expanded.getD p default, (multiScores.getD p []).getD c 0, c)]
      else []))

/-- `PostProcessor._multiclass_nms`. In this pipeline `multi_bboxes` always has
4 columns, so the source takes the `expand` branch
(`multi_bboxes[:, None].expand(num_proposals, num_classes, 4)`), which is legal
only when the box count equals the score-row count or is 1 (silent broadcast);
any other mismatch raises the tensor library's shape error, modelled as `none`.
`num_classes = multi_scores.size(1) - 1` (last column is background), proposals
with `score > score_thr` go to `_batched_nms`, and the kept rows and labels are
truncated to `max_num` when it is positive. -/
def multiclassNms (multiBboxes : List Box) (multiScores : List (List ℚ))
    (scoreThr iouThr : ℚ) (maxNum : ℤ) :
    Option (List (Box × ℚ) × List ℕ) :=
  let numClasses := (multiScores.headD []).length - 1
  if multiBboxes.length = multiScores.length ∨ multiBboxes.length = 1 then
    let expanded :=
      if multiBboxes.length = multiScores.length then multiBboxes
      else List.replicate multiScores.length (multiBboxes.headD default)
    let selected := selectedTriples expanded multiScores numClasses scoreThr
    if selected = [] then some ([], [])
    else
      let r := batchedNms iouThr (selected.map (fun t => t.1))
        (selected.map (fun t => t.2.1)) (selected.map (fun t => t.2.2))
      some (if 0 < maxNum then r.1.take maxNum.toNat else r.1,
        (if 0 < maxNum then r.2.take maxNum.toNat else r.2).map
          (fun i => (selected.map (fun t => t.2.2)).getD i 0))
  else none

/-- Counterexample for C6: one box against two score rows is a length
mismatch, yet the call succeeds — `expand` silently broadcasts the single box
to every proposal; no `ShapeMismatch` error exists in the code. -/
theorem multiclass_nms_mismatch_no_failure :
    ([(⟨0, 0, 10, 10⟩ : Box)] : List Box).length
        ≠ ([[1, 0], [1, 0]] : List (List ℚ)).length
    ∧ multiclassNms [⟨0, 0, 10, 10⟩] [[1, 0], [1, 0]] 2 (1/2) 100
        = some ([], []) := by
  constructor
  · decide
  · norm_num [multiclassNms, selectedTriples, List.range_succ]

/-- C6 (amended): a suppression call whose box count neither matches the
score-row count nor equals 1 fails — with the tensor library's generic shape
error (modelled as `none`), the code defining no `ShapeMismatch`; a box count
of exactly 1 is instead silently broadcast. -/
theorem multiclass_nms_shape_mismatch (multiBboxes : List Box)
    (multiScores : List (List ℚ)) (scoreThr iouThr : ℚ) (maxNum : ℤ)
    (hne : multiBboxes.length ≠ multiScores.length)
    (h1 : multiBboxes.length ≠ 1) :
    multiclassNms multiBboxes multiScores scoreThr iouThr maxNum = none := by
  unfold multiclassNms
  simp [hne, h1]

/-- Witness for the amended C6: two boxes against three score rows fail. -/
theorem multiclass_nms_shape_mismatch_witness :
    multiclassNms [(⟨0, 0, 1, 1⟩ : Box), ⟨2, 2, 3, 3⟩] [[1, 0], [1, 0], [1, 0]]
      (3/10) (1/2) 100 = none :=
  multiclass_nms_shape_mismatch _ _ _ _ _ (by decide) (by decide)

/-- Counterexample for C7: with stride 400 on a 320×320 input the (single)
level is degenerate (`320 // 400 = 0`), yet prior generation completes
normally and returns the empty prior list — it does not fail, and no
`ConfigurationError` exists in the code. -/
theorem degenerate_stride_no_failure :
    (320 : ℕ) / 400 = 0
    ∧ generateCenterPriors ⟨[400], 7, 320, 320, 3/10, 1/2, 100⟩ = [] := by
  exact ⟨rfl, rfl⟩

/-- C7 (amended): a stride whose feature map is degenerate
(`H // s = 0` or `W // s = 0`) contributes zero priors, and prior generation
completes normally with the total count formula still holding. -/
theorem degenerate_stride_contributes_no_priors (cfg : Config) (i : ℕ)
    (hi : i < cfg.strides.length)
    (hdeg : cfg.inputHeight / cfg.strides.getD i 0 = 0
          ∨ cfg.inputWidth / cfg.strides.getD i 0 = 0) :
    levelPriors cfg.inputHeight cfg.inputWidth (cfg.strides.getD i 0) = []
    ∧ (generateCenterPriors cfg).length
        = (cfg.strides.map
            (fun s => (cfg.inputHeight / s) * (cfg.inputWidth / s))).sum := by
  constructor
  · have hlen : (levelPriors cfg.inputHeight cfg.inputWidth
        (cfg.strides.getD i 0)).length = 0 := by
      rw [length_levelPriors]
      rcases hdeg with h | h
      · rw [h]; exact Nat.zero_mul _
      · rw [h]; exact Nat.mul_zero _
    exact List.eq_nil_of_length_eq_zero hlen
  · exact length_generateCenterPriors cfg

/-- Witness for the amended C7: strides `[8, 400]` on a 320×320 input. -/
theorem degenerate_stride_contributes_no_priors_witness :
    levelPriors 320 320 (([8, 400] : List ℕ).getD 1 0) = []
    ∧ (generateCenterPriors ⟨[8, 400], 7, 320, 320, 3/10, 1/2, 100⟩).length
        = (([8, 400] : List ℕ).map (fun s => (320 / s) * (320 / s))).sum :=
  degenerate_stride_contributes_no_priors ⟨[8, 400], 7, 320, 320, 3/10, 1/2, 100⟩
    1 (by decide) (Or.inl (by decide))

/-- The rescaling step at the end of `PostProcessor.process`:
`scale_x = original_w / input_w`, `scale_y = original_h / input_h`, multiply
`x1, x2` by `scale_x` and `y1, y2` by `scale_y`, then `np.clip` the x
coordinates into `[0, original_w]` and the y coordinates into `[0, original_h]`. -/
def rescaleClip (b : Box) (inputW inputH origW origH : ℚ) : Box :=
  let scaled : Box := ⟨b.x1 * (origW / inputW), b.y1 * (origH / inputH),
    b.x2 * (origW / inputW), b.y2 * (origH / inputH)⟩
  ⟨clampQ scaled.x1 0 origW, clampQ scaled.y1 0 origH,
   clampQ scaled.x2 0 origW, clampQ scaled.y2 0 origH⟩

/-- C9: rescaling multiplies `x1, x2` by `orig_w / input_w` and `y1, y2` by
`orig_h / input_h` and then clips to the original canvas; with
`original_image_shape = (480, 640)` and a 320×320 input the scales are `2`
and `1.5`, and the box `(10, 10, 50, 50)` rescales to `(20, 15, 100, 75)`. -/
theorem rescale_clip_formula (b : Box) (inputW inputH origW origH : ℚ) :
    (rescaleClip b inputW inputH origW origH).x1
        = clampQ (b.x1 * (origW / inputW)) 0 origW
    ∧ (rescaleClip b inputW inputH origW origH).y1
        = clampQ (b.y1 * (origH / inputH)) 0 origH
    ∧ (rescaleClip b inputW inputH origW origH).x2
        = clampQ (b.x2 * (origW / inputW)) 0 origW
    ∧ (rescaleClip b inputW inputH origW origH).y2
        = clampQ (b.y2 * (origH / inputH)) 0 origH
    ∧ (640 : ℚ) / 320 = 2
    ∧ (480 : ℚ) / 320 = 3/2
    ∧ rescaleClip ⟨10, 10, 50, 50⟩ 320 320 640 480 = ⟨20, 15, 100, 75⟩ := by
  refine ⟨rfl, rfl, rfl, rfl, by norm_num, by norm_num, ?_⟩
  norm_num [rescaleClip, clampQ]

/-- `torch.sigmoid` with the abstract exponential: `1 / (1 + E (-x))`. -/
def sigmoidQ (E : ℚ → ℚ) (x : ℚ) : ℚ := 1 / (1 + E (-x))

/-- One row of `raw_output[0]`: channel 0 is the classification logit and
channels `1…` are the `4·(reg_max+1)` regression logits. -/
structure RawRow where
  clsLogit : ℚ
  regLogits : List ℚ
deriving DecidableEq

/-- The `final_output_for_overlay` accumulation at the end of
`PostProcessor.process`: append the detection to its label's list, creating
the key on first use (dict insertion order preserved). -/
def insertDet (m : List (ℕ × List (Box × ℚ))) (l : ℕ) (d : Box × ℚ) :
    List (ℕ × List (Box × ℚ)) :=
  if m.any (fun kv => kv.1 == l)
  then m.map (fun kv => if kv.1 == l then (kv.1, kv.2 ++ [d]) else kv)
  else m ++ [(l, [d])]

/-- `PostProcessor.process` for one image: integral-decode the regression
logits, scale by each prior's stride, decode and clip boxes against the input
canvas, sigmoid the class logits and append the zero background column, run
`_multiclass_nms`, rescale the survivors to the original image and group them
by label. A raw tensor whose row count differs from the prior count makes the
tensor arithmetic fail (modelled as `none`). -/
def process (E : ℚ → ℚ) (cfg : Config) (raw : List RawRow) (origH origW : ℚ) :
    Option (List (ℕ × List (Box × ℚ))) :=
  let priors := generateCenterPriors cfg
  if raw.length = priors.length then
    let disPreds := (raw.zip priors).map (fun rp =>
      (integralDistributionProject E cfg.regMax rp.1.regLogits).map
        (fun d => d * rp.2.sx))
    let bboxes := (priors.zip disPreds).map (fun pd =>
      distance2bbox pd.1.x pd.1.y (pd.2.getD 0 0) (pd.2.getD 1 0)
        (pd.2.getD 2 0) (pd.2.getD 3 0)
        (some ((cfg.inputHeight : ℚ), (cfg.inputWidth : ℚ))))
    let scoresForNms := raw.map (fun row => [sigmoidQ E row.clsLogit, 0])
    (multiclassNms bboxes scoresForNms cfg.scoreThr cfg.iouThreshold
        (cfg.maxDetections : ℤ)).map (fun dl =>
      (dl.2.zip (dl.1.map (fun ds =>
        (rescaleClip ds.1 (cfg.inputWidth : ℚ) (cfg.inputHeight : ℚ) origW origH,
          ds.2)))).foldl (fun m ld => insertDet m ld.1 ld.2) [])
  else none

theorem selectedTriples_label_lt (expanded : List Box) (ms : List (List ℚ))
    (nc : ℕ) (thr : ℚ) (t : Box × ℚ × ℕ)
    (ht : t ∈ selectedTriples expanded ms nc thr) : t.2.2 < nc := by
  unfold selectedTriples at ht
  obtain ⟨p, _, hp⟩ := List.mem_flatMap.mp ht
  obtain ⟨c, hc, hsome⟩ := List.mem_flatMap.mp hp
  split at hsome
  · obtain rfl : t = (expanded.getD p default, (ms.getD p []).getD c 0, c) := by
      simpa using hsome
    exact List.mem_range.mp hc
  · exact absurd hsome (by simp)

theorem getD_zero_of_all_zero (l : List ℕ) (hl : ∀ x ∈ l, x = 0) (i : ℕ) :
    l.getD i 0 = 0 := by
  rcases Nat.lt_or_ge i l.length with h | h
  · rw [List.getD_eq_getElem _ _ h]
    exact hl _ (List.getElem_mem h)
  · rw [List.getD_eq_default _ _ h]

theorem multiclassNms_labels_all_zero (multiBboxes : List Box)
    (multiScores : List (List ℚ)) (scoreThr iouThr : ℚ) (maxNum : ℤ)
    (hw : (multiScores.headD []).length ≤ 2)
    (dets : List (Box × ℚ)) (labels : List ℕ)
    (h : multiclassNms multiBboxes multiScores scoreThr iouThr maxNum
        = some (dets, labels)) :
    ∀ x ∈ labels, x = 0 := by
  simp only [multiclassNms] at h
  rcases Decidable.em
      (multiBboxes.length = multiScores.length ∨ multiBboxes.length = 1) with
    hcond | hcond
  · rw [if_pos hcond] at h
    set sel := selectedTriples
      (if multiBboxes.length = multiScores.length then multiBboxes
        else List.replicate multiScores.length (multiBboxes.headD default))
      multiScores ((multiScores.headD []).length - 1) scoreThr with hseldef
    by_cases hsel : sel = []
    · rw [if_pos hsel] at h
      simp only [Option.some.injEq, Prod.mk.injEq] at h
      obtain ⟨-, h2⟩ := h
      subst h2
      intro x hx
      simp at hx
    · rw [if_neg hsel] at h
      simp only [Option.some.injEq, Prod.mk.injEq] at h
      obtain ⟨-, h2⟩ := h
      intro x hx
      rw [← h2] at hx
      obtain ⟨i, -, rfl⟩ := List.mem_map.mp hx
      apply getD_zero_of_all_zero
      intro y hy
      obtain ⟨t, ht, rfl⟩ := List.mem_map.mp hy
      have hlt := selectedTriples_label_lt _ _ _ _ t (hseldef ▸ ht)
      omega
  · rw [if_neg hcond] at h
    exact absurd h (by simp)

theorem insertDet_keys (m : List (ℕ × List (Box × ℚ))) (l : ℕ) (d : Box × ℚ)
    (hm : ∀ kv ∈ m, kv.1 = 0) (hl : l = 0) :
    ∀ kv ∈ insertDet m l d, kv.1 = 0 := by
  unfold insertDet
  split
  · intro kv hkv
    obtain ⟨kv', hkv', rfl⟩ := List.mem_map.mp hkv
    have hfst : ((if kv'.1 == l then (kv'.1, kv'.2 ++ [d]) else kv')
        : ℕ × List (Box × ℚ)).1 = kv'.1 := by
      split <;> rfl
    rw [hfst]
    exact hm kv' hkv'
  · intro kv hkv
    rcases List.mem_append.mp hkv with h | h
    · exact hm kv h
    · have hkv' : kv = (l, [d]) := by simpa using h
      rw [hkv']
      exact hl

theorem foldl_insertDet_keys :
    ∀ (lds : List (ℕ × (Box × ℚ))) (acc : List (ℕ × List (Box × ℚ))),
      (∀ p ∈ lds, p.1 = 0) → (∀ kv ∈ acc, kv.1 = 0) →
      ∀ kv ∈ lds.foldl (fun m ld => insertDet m ld.1 ld.2) acc, kv.1 = 0 := by
  intro lds
  induction lds with
  | nil => intro acc _ hacc kv hkv; exact hacc kv (by simpa using hkv)
  | cons p tl ih =>
    intro acc hl hacc kv hkv
    simp only [List.foldl_cons] at hkv
    exact ih _ (fun q hq => hl q (List.mem_cons_of_mem _ hq))
      (insertDet_keys acc p.1 p.2 hacc (hl p (List.mem_cons_self p tl))) kv hkv

theorem map_fst_eq_replicate_zero :
    ∀ (res : List (ℕ × List (Box × ℚ))), (∀ kv ∈ res, kv.1 = 0) →
      res.map (fun kv => kv.1) = List.replicate res.length 0 := by
  intro res
  induction res with
  | nil => intro _; rfl
  | cons kv tl ih =>
    intro h
    simp only [List.map_cons, List.length_cons, List.replicate_succ]
    rw [h kv (List.mem_cons_self kv tl),
      ih (fun q hq => h q (List.mem_cons_of_mem _ hq))]

/-- C10: every key of the mapping returned by `process` is the class index 0 —
the score matrix handed to suppression has one foreground column plus the zero
background column, so every surviving label is 0. -/
theorem process_keys_all_zero (E : ℚ → ℚ) (cfg : Config) (raw : List RawRow)
    (origH origW : ℚ) (res : List (ℕ × List (Box × ℚ)))
    (h : process E cfg raw origH origW = some res) :
    res.map (fun kv => kv.1) = List.replicate res.length 0 := by
  simp only [process] at h
  rcases Decidable.em (raw.length = (generateCenterPriors cfg).length) with
    hlen | hlen
  · rw [if_pos hlen] at h
    obtain ⟨dl, hdl, hres⟩ := Option.map_eq_some'.mp h
    have hhead : ((raw.map
        (fun row => [sigmoidQ E row.clsLogit, 0])).headD []).length ≤ 2 := by
      cases raw <;> simp
    have hlab : ∀ x ∈ dl.2, x = 0 :=
      multiclassNms_labels_all_zero _ _ _ _ _ hhead dl.1 dl.2 hdl
    apply map_fst_eq_replicate_zero
    rw [← hres]
    apply foldl_insertDet_keys _ _ _ (fun kv hkv => by simp at hkv)
    intro p hp
    exact hlab p.1 (List.of_mem_zip hp).1
  · rw [if_neg hlen] at h
    exact absurd h (by simp)

theorem integralDistributionProject_replicate32 (E : ℚ → ℚ)
    (hpos : ∀ x, 0 < E x) (c : ℚ) :
    integralDistributionProject E 7 (List.replicate 32 c) = [7/2, 7/2, 7/2, 7/2] := by
  have hsm : softmaxQ E (List.replicate 8 c) = List.replicate 8 (1/8) := by
    rw [softmaxQ_replicate E hpos 8 c]
    norm_num
  show (reshapeGroups 8 (List.replicate 32 c)).map
      (fun g => dotQ (softmaxQ E g) (projectVec 7)) = [7/2, 7/2, 7/2, 7/2]
  have hgroups : reshapeGroups 8 (List.replicate 32 c)
      = [List.replicate 8 c, List.replicate 8 c, List.replicate 8 c,
          List.replicate 8 c] := by
    simp [reshapeGroups, List.take_replicate, List.drop_replicate]
  rw [hgroups]
  simp only [List.map_cons, List.map_nil, hsm]
  have hrep : List.replicate 8 ((1 : ℚ)/8)
      = [1/8, 1/8, 1/8, 1/8, 1/8, 1/8, 1/8, 1/8] := rfl
  rw [hrep]
  norm_num [dotQ, projectVec, List.range_succ]

/-- Witness for C10 on a concrete full pipeline run: one 8×8 level, one
proposal with logit 0 and uniform regression logits, which survives and is
filed under key 0. -/
theorem process_keys_all_zero_witness :
    ([((0 : ℕ), [((⟨0, 0, 8, 8⟩ : Box), (1/2 : ℚ))])].map (fun kv => kv.1))
      = List.replicate
          ([((0 : ℕ), [((⟨0, 0, 8, 8⟩ : Box), (1/2 : ℚ))])].length) 0 := by
  have h1 : generateCenterPriors ⟨[8], 7, 8, 8, 3/10, 1/2, 0⟩
      = [⟨4, 4, 8, 8⟩] := by
    norm_num [generateCenterPriors, levelPriors, getSingleLevelCenterPoint,
      List.range_succ]
  have h2 : integralDistributionProject (fun _ => (1 : ℚ)) 7
      (List.replicate 32 0) = [7/2, 7/2, 7/2, 7/2] :=
    integralDistributionProject_replicate32 (fun _ => 1) (fun _ => one_pos) 0
  have hres : process (fun _ => (1 : ℚ)) ⟨[8], 7, 8, 8, 3/10, 1/2, 0⟩
      [⟨0, List.replicate 32 0⟩] 8 8
      = some [(0, [(⟨0, 0, 8, 8⟩, 1/2)])] := by
    norm_num [process, h1, h2, sigmoidQ, multiclassNms, selectedTriples,
      batchedNms, nmsIndices, nmsStep, argsortDesc, insertRankedDesc,
      boxesForNms, maxCoordinate, shiftBox, iou, boxArea, distance2bbox,
      clampQ, rescaleClip, insertDet, List.range_succ]
  exact process_keys_all_zero (fun _ => (1 : ℚ)) ⟨[8], 7, 8, 8, 3/10, 1/2, 0⟩
    [⟨0, List.replicate 32 0⟩] 8 8 _ hres
